import Mathlib

/-!
Verification of the authenticated envelope-encryption core of the
Playwright-Argon2-Cryptography repository.

The TypeScript source is shallowly embedded: JavaScript strings are modelled
as Lean `String` (with the line- and character-level operations re-implemented
structurally over `List Char` so that every definition evaluates by kernel
reduction), fallible code returns `Except String`, and the external
cryptographic libraries (argon2, CryptoJS AES / HMAC-SHA256, Node
`crypto.randomBytes`) are abstracted as function parameters, since their code
is not part of this repository.
-/

/-- ASCII whitespace recognizer, modelling the characters relevant to
JavaScript `String.prototype.trim` on the ASCII inputs this code handles. -/
def isWsChar (c : Char) : Bool :=
  c == ' ' || c == '\t' || c == '\n' || c == '\r'

/-- Trim leading and trailing whitespace from a character list
(model of JavaScript `trim`). -/
def trimChars (cs : List Char) : List Char :=
  ((cs.dropWhile isWsChar).reverse.dropWhile isWsChar).reverse

/-- Model of JavaScript `s.trim()`. -/
def strTrim (s : String) : String :=
  String.mk (trimChars s.toList)

/-- Split a character list on a separator character, modelling JavaScript
`s.split(sep)` for a one-character separator: the result is never empty and
joining the pieces with the separator recovers the input. -/
def splitOnChar (sep : Char) : List Char → List (List Char)
  | [] => [[]]
  | c :: rest =>
    if c == sep then [] :: splitOnChar sep rest
    else
      match splitOnChar sep rest with
      | [] => [[c]]
      | l :: ls => (c :: l) :: ls

/-- Model of JavaScript `content.split("\n")`. -/
def splitLinesStr (s : String) : List String :=
  (splitOnChar '\n' s.toList).map String.mk

/-- Join character-list lines with newline characters
(model of JavaScript `lines.join("\n")` at the character level). -/
def joinChars : List (List Char) → List Char
  | [] => []
  | [l] => l
  | l :: ls => l ++ '\n' :: joinChars ls

/-- Model of JavaScript `lines.join("\n")`. -/
def joinLinesStr (ls : List String) : String :=
  String.mk (joinChars (ls.map String.toList))

/-- The four-field encryption envelope
(`EncryptionParams` in src/models/cryptoTypes.ts). -/
structure EncryptionParams where
  salt : String
  iv : String
  cipherText : String
  mac : String
deriving DecidableEq, Repr

/-- Opening-brace character of JSON object syntax. -/
def lbrace : Char := Char.ofNat 123

/-- Closing-brace character of JSON object syntax. -/
def rbrace : Char := Char.ofNat 125

/-- Primitive JSON values: strings, integers, booleans and null.
This is the fragment of JSON needed for envelope documents (whose members are
all strings); fractional numbers, nested composites and unicode escapes are
outside the modelled fragment. -/
inductive JPrim where
  | str : String → JPrim
  | int : Int → JPrim
  | bool : Bool → JPrim
  | null : JPrim
deriving DecidableEq, Repr

/-- JSON documents of the modelled fragment: a flat object with primitive
members, or a single primitive. -/
inductive Json where
  | obj : List (String × JPrim) → Json
  | lit : JPrim → Json
deriving DecidableEq, Repr

/-- Decode one JSON string escape character via the table of two-character
escapes. -/
def unescapeChar (c : Char) : Option Char :=
  [('"', '"'), ('\\', '\\'), ('/', '/'), ('n', '\n'), ('t', '\t'), ('r', '\r'),
   ('b', Char.ofNat 8), ('f', Char.ofNat 12)].lookup c

/-- Parse the body of a JSON string (the opening quote already consumed),
returning the decoded characters and the remaining input. -/
def parseStrBody : List Char → Option (List Char × List Char)
  | [] => none
  | c :: rest =>
    if c == '"' then some ([], rest)
    else if c == '\\' then
      match rest with
      | [] => none
      | e :: rest2 =>
        match unescapeChar e with
        | some d => (parseStrBody rest2).map (fun p => (d :: p.1, p.2))
        | none => none
    else (parseStrBody rest).map (fun p => (c :: p.1, p.2))

/-- Greedily take decimal digits from the front of the input. -/
def takeDigits : List Char → List Char × List Char
  | [] => ([], [])
  | c :: rest =>
    if c.isDigit then
      match takeDigits rest with
      | (ds, r) => (c :: ds, r)
    else ([], c :: rest)

/-- Numeric value of a list of decimal digits. -/
def digitsToNat (ds : List Char) : Nat :=
  ds.foldl (fun acc c => acc * 10 + (c.toNat - 48)) 0

/-- Parse one primitive JSON value. -/
def parsePrim (cs : List Char) : Option (JPrim × List Char) :=
  match cs with
  | '"' :: rest => (parseStrBody rest).map (fun p => (.str (String.mk p.1), p.2))
  | 't' :: 'r' :: 'u' :: 'e' :: rest => some (.bool true, rest)
  | 'f' :: 'a' :: 'l' :: 's' :: 'e' :: rest => some (.bool false, rest)
  | 'n' :: 'u' :: 'l' :: 'l' :: rest => some (.null, rest)
  | '-' :: rest =>
    match takeDigits rest with
    | ([], _) => none
    | (ds, r) => some (.int (-(digitsToNat ds : Int)), r)
  | other =>
    match takeDigits other with
    | ([], _) => none
    | (ds, r) => some (.int (digitsToNat ds), r)

/-- Parse one `"key":value` object member. -/
def parseMember (cs : List Char) : Option (String × JPrim × List Char) :=
  match cs with
  | '"' :: rest =>
    match parseStrBody rest with
    | some (k, rest2) =>
      match rest2 with
      | ':' :: rest3 =>
        match parsePrim rest3 with
        | some (v, rest4) => some (String.mk k, v, rest4)
        | none => none
      | _ => none
    | none => none
  | _ => none

/-- Parse a comma-separated member list terminated by a closing brace.
The fuel bounds the number of members and is at least the input length at the
top-level call site. -/
def parseMembers : Nat → List Char → Option (List (String × JPrim) × List Char)
  | 0, _ => none
  | fuel + 1, cs =>
    match parseMember cs with
    | some (k, v, rest) =>
      match rest with
      | c :: rest2 =>
        if c == ',' then
          (parseMembers fuel rest2).map (fun p => ((k, v) :: p.1, p.2))
        else if c == rbrace then some ([(k, v)], rest2)
        else none
      | [] => none
    | none => none

/-- Model of the JavaScript runtime `JSON.parse`, restricted to the
whitespace-free flat fragment produced and consumed by this code; inputs
outside the fragment are mapped to the failure case, which the source treats
identically to any other parse failure. -/
def parseJson (s : String) : Option Json :=
  match s.toList with
  | [] => none
  | c :: rest =>
    if c == lbrace then
      if rest == [rbrace] then some (.obj [])
      else
        match parseMembers (rest.length + 1) rest with
        | some (kvs, []) => some (.obj kvs)
        | _ => none
    else
      match parsePrim (c :: rest) with
      | some (v, []) => some (.lit v)
      | _ => none

/-- Model of `JSON.stringify({ salt, iv, cipherText, mac })` for the envelope
object built by `CryptoService.encrypt`: fields are emitted in insertion
order; the fields this code produces (base64 and hex strings) require no
escaping. -/
def stringifyEnvelope (e : EncryptionParams) : String :=
  "\x7b\"salt\":\"" ++ e.salt ++ "\",\"iv\":\"" ++ e.iv ++ "\",\"cipherText\":\""
    ++ e.cipherText ++ "\",\"mac\":\"" ++ e.mac ++ "\"\x7d"

/-- Look up a member of a parsed JSON document and return it only when it is
a string; for a non-object document no member is found, matching the
behaviour of property access on a non-object JavaScript value. -/
def Json.getStr (j : Json) (k : String) : Option String :=
  match j with
  | .obj kvs =>
    match kvs.lookup k with
    | some (.str v) => some v
    | _ => none
  | .lit _ => none

/-- The external cryptographic primitives used by the source, abstracted as
functions. `argon2` models `deriveKeyWithArgon2` (secret key and base64 salt
to derived key material, handled throughout in its base64 string form);
`aesEnc` models `CryptoUtil.encryptData` (plaintext, key, base64 IV to base64
ciphertext); `aesDec` models `CryptoUtil.decryptData` composed with the UTF-8
decode, returning the empty string on undecodable input exactly as
`toString(CryptoJS.enc.Utf8)` does; `hmacSha256` models
`CryptoJS.HmacSHA256(message, key).toString()`. -/
structure CryptoPrims where
  argon2 : String → String → String
  aesEnc : String → String → String → String
  aesDec : String → String → String → String
  hmacSha256 : String → String → String

/-- Model of `CryptoUtil.generateMac`: HMAC-SHA256 of the colon-joined
`salt:iv:cipherText` under the derived key. -/
def generateMac (p : CryptoPrims) (salt iv cipherText key : String) : String :=
  p.hmacSha256 (salt ++ ":" ++ iv ++ ":" ++ cipherText) key

/-- Error message thrown by `CryptoUtil.verifyMac` on a MAC mismatch. -/
def macMismatchMsg : String :=
  "MAC verification failed. The data may have been tampered with."

/-- Model of `CryptoUtil.verifyMac`: exact string comparison, throwing on
mismatch. -/
def verifyMac (computedMac mac : String) : Except String Unit :=
  if computedMac ≠ mac then .error macMismatchMsg else .ok ()

/-- Error message thrown by `CryptoUtil.validateParsedData` when a required
envelope field is missing. -/
def missingPropsMsg : String :=
  "Missing required properties in parsed data."

/-- Model of `CryptoUtil.validateParsedData` combined with the destructuring
in `parseEncryptedData`: every one of `salt`, `iv`, `cipherText`, `mac` must
be present and truthy. A member that is present but not a string is folded
into the same failure, since the non-string members a real envelope never
contains cannot reach the success path of the decrypt pipeline. -/
def validateParsedData (j : Json) : Except String EncryptionParams :=
  match j.getStr "salt", j.getStr "iv", j.getStr "cipherText", j.getStr "mac" with
  | some salt, some iv, some cipherText, some mac =>
    if salt = "" ∨ iv = "" ∨ cipherText = "" ∨ mac = "" then .error missingPropsMsg
    else .ok ⟨salt, iv, cipherText, mac⟩
  | _, _, _, _ => .error missingPropsMsg

/-- Model of `CryptoUtil.parseEncryptedData`: reject empty input, parse as
JSON, then validate the four required fields. -/
def parseEncryptedData (encryptedData : String) : Except String EncryptionParams :=
  if encryptedData = "" then .error "Encrypted data is required."
  else
    match parseJson encryptedData with
    | none => .error "Unexpected token in JSON input."
    | some j => validateParsedData j

/-- Model of `CryptoService.encrypt`. The fresh random salt and IV drawn by
`generateSalt` and `generateIvAsBase64` inside the source function are passed
as explicit arguments standing for the two random draws. -/
def encrypt (p : CryptoPrims) (value secretKey salt iv : String) : EncryptionParams :=
  let key := p.argon2 secretKey salt
  let cipherText := p.aesEnc value key iv
  let mac := generateMac p salt iv cipherText key
  ⟨salt, iv, cipherText, mac⟩

/-- Error message thrown by `CryptoService.decrypt` when the decrypted result
is empty. -/
def emptyDecryptMsg : String :=
  "Decryption failed. The result is empty or malformed."

/-- Model of `CryptoService.decrypt`: parse and validate the envelope, derive
the key, recompute and verify the MAC, decrypt, and reject an empty result. -/
def decrypt (p : CryptoPrims) (encryptedData secretKey : String) : Except String String :=
  match parseEncryptedData encryptedData with
  | .error e => .error e
  | .ok parsed =>
    let key := p.argon2 secretKey parsed.salt
    let computedMac := generateMac p parsed.salt parsed.iv parsed.cipherText key
    match verifyMac computedMac parsed.mac with
    | .error e => .error e
    | .ok _ =>
      let decrypted := p.aesDec parsed.cipherText key parsed.iv
      if decrypted = "" then .error emptyDecryptMsg
      else .ok decrypted

/-- Model of Node `crypto.randomBytes(length).toString("base64")` as an
abstract random source: given a byte count it yields a base64 string or a
random-source failure. Lengths are `Int` because a JavaScript caller can pass
a negative number. -/
def RandomBase64 := Int → Except String String

/-- Model of `CryptoUtil.generateSalt`: lengths at most zero are rejected
before the random source is consulted. -/
def generateSalt (randomBase64 : RandomBase64) (length : Int) : Except String String :=
  if length ≤ 0 then .error "Salt length must be greater than zero."
  else randomBase64 length

/-- Model of `CryptoUtil.generateIvAsBase64`: lengths at most zero are
rejected before the random source is consulted. -/
def generateIvAsBase64 (randomBase64 : RandomBase64) (length : Int) : Except String String :=
  if length ≤ 0 then .error "IV length must be greater than zero."
  else randomBase64 length

/-- Model of `CryptoUtil.generateSecretKey`: the random source is consulted
directly; the source function contains no length validation. -/
def generateSecretKey (randomBase64 : RandomBase64) (length : Int) : Except String String :=
  randomBase64 length

/-- Model of `EncryptionHandler.handleInvalidFormatError`: the per-line
diagnostic message carrying the 1-based line index and the raw line. -/
def handleInvalidFormatError (index : Nat) (line : String) : String :=
  "Line " ++ toString (index + 1)
    ++ " doesn't contain any variables or has invalid format: " ++ line

/-- Model of `value.trim()` and the `=`-split of one trimmed line, following
`trimmedLine.split("=")`: the destructuring takes the first two segments. -/
def splitEq (cs : List Char) : List (List Char) :=
  splitOnChar '=' cs

/-- Transform of one line inside the loop of
`EncryptionHandler.encryptLines`, as the list of output lines it contributes
(empty when the line is dropped). The salt and IV streams supply the random
draws of the `CryptoService.encrypt` call made for line `index`. -/
def lineOut (p : CryptoPrims) (secretKey : String) (salts ivs : Nat → String)
    (index : Nat) (line : String) : List String :=
  let trimmedLine := strTrim line
  if trimmedLine = "" then [""]
  else if ¬ trimmedLine.toList.contains '=' then []
  else
    match splitEq trimmedLine.toList with
    | key :: value :: _ =>
      if String.mk value ≠ "" then
        [String.mk key ++ "=" ++
          stringifyEnvelope
            (encrypt p (strTrim (String.mk value)) secretKey (salts index) (ivs index))]
      else [line]
    | _ => [line]

/-- Diagnostics contributed by one line of `EncryptionHandler.encryptLines`
(at most one entry, for a non-blank line without `=`). -/
def lineErrs (index : Nat) (line : String) : List String :=
  let trimmedLine := strTrim line
  if trimmedLine = "" then []
  else if ¬ trimmedLine.toList.contains '=' then [handleInvalidFormatError index line]
  else []

/-- The accumulating loop of `EncryptionHandler.encryptLines` over the line
list, threading the 0-based index, the output lines and the collected format
diagnostics; each iteration appends the output lines and diagnostics that the
source loop body pushes for that line, as given by `lineOut` and
`lineErrs`. -/
def encryptLinesGo (p : CryptoPrims) (secretKey : String) (salts ivs : Nat → String) :
    List String → Nat → List String → List String → List String × List String
  | [], _, outs, errs => (outs, errs)
  | line :: rest, index, outs, errs =>
    encryptLinesGo p secretKey salts ivs rest (index + 1)
      (outs ++ lineOut p secretKey salts ivs index line)
      (errs ++ lineErrs index line)

/-- Error message thrown by `EncryptionHandler.encryptLines` when every line
is blank or whitespace. -/
def emptyFileMsg : String :=
  "File is completely empty or contains only whitespace."

/-- Model of `EncryptionHandler.encryptLines`: reject a line list in which
every line is blank, then run the per-line loop; collected format
diagnostics are logged as one batch after the loop without aborting, so they
are returned alongside the output lines. -/
def encryptLines (p : CryptoPrims) (secretKey : String) (salts ivs : Nat → String)
    (lines : List String) : Except String (List String × List String) :=
  if lines.all (fun line => strTrim line = "") then .error emptyFileMsg
  else .ok (encryptLinesGo p secretKey salts ivs lines 0 [] [])

/-- Model of `UtilityHelper.writeFile`: empty content is rejected before
anything is written; otherwise the content is stored. -/
def writeFile (content keyName : String) : Except String String :=
  if content = "" then .error ("No content provided for file: " ++ keyName)
  else .ok content

/-- Model of `EncryptionHandler.encryptEnvVariables` acting on the contents
of the environment file: read it as newline-split lines, encrypt them, join
with newlines and write the result back through `writeFile` (whose `keyName`
argument is the `FileEncoding.UTF8` constant `"utf8"` at this call site).
The returned value is the newly written file content. -/
def encryptEnvVariables (p : CryptoPrims) (secretKey : String)
    (salts ivs : Nat → String) (file : String) : Except String String :=
  match encryptLines p secretKey salts ivs (splitLinesStr file) with
  | .error e => .error e
  | .ok (encryptedLines, _) => writeFile (joinLinesStr encryptedLines) "utf8"

/-- The content of the environment file after `encryptEnvVariables`: a thrown
error anywhere before the `fs.writeFileSync` call leaves the stored file
unchanged. -/
def finalFileContent (p : CryptoPrims) (secretKey : String)
    (salts ivs : Nat → String) (file : String) : String :=
  match encryptEnvVariables p secretKey salts ivs file with
  | .ok newContent => newContent
  | .error _ => file

/-- Expansion of a JavaScript `String.prototype.replace` replacement string
for a pattern without capture groups: `$$`, `$&`, `` $` `` and `$'` are
special; any other `$` sequence is literal. -/
def expandRepl (matched before after : String) : List Char → List Char
  | [] => []
  | c :: rest =>
    if c == '$' then
      match rest with
      | [] => ['$']
      | d :: rest2 =>
        if d == '$' then '$' :: expandRepl matched before after rest2
        else if d == '&' then matched.toList ++ expandRepl matched before after rest2
        else if d == Char.ofNat 96 then before.toList ++ expandRepl matched before after rest2
        else if d == Char.ofNat 39 then after.toList ++ expandRepl matched before after rest2
        else '$' :: d :: expandRepl matched before after rest2
    else c :: expandRepl matched before after rest

/-- Model of `EnvFilesHandler.getKeyValue` on the base file content: the
first line matched by `^keyName=(.*)$` in multiline mode yields its captured
remainder; with no match the result is the absent sentinel (`none`). The
regex is modelled as literal prefix matching, which coincides with it for
keys made of plain identifier characters. -/
def getKeyValue (content keyName : String) : Option String :=
  (splitOnChar '\n' content.toList).findSome? fun l =>
    if (keyName.toList ++ ['=']).isPrefixOf l
    then some (String.mk (l.drop (keyName.toList.length + 1)))
    else none

/-- Model of `EnvFilesHandler.storeBaseEnvKey` on the base file content: if a
line matches `^keyName=.*` (multiline mode, modelled as literal prefix
matching), the first such line — which the greedy `.*` makes the whole line —
is replaced by the expansion of the replacement string `keyName=keyValue`;
otherwise `keyName=keyValue\n` is appended to the content. -/
def storeBaseEnvKey (content keyName keyValue : String) : String :=
  let ls := splitOnChar '\n' content.toList
  let pat := keyName.toList ++ ['=']
  match ls.findIdx? (fun l => pat.isPrefixOf l) with
  | some i =>
    let pre := ls.take i
    let matched := ls.getD i []
    let post := ls.drop (i + 1)
    let before := if i = 0 then ([] : List Char) else joinChars pre ++ ['\n']
    let after := if post = [] then ([] : List Char) else '\n' :: joinChars post
    let repl := expandRepl (String.mk matched) (String.mk before) (String.mk after)
      (keyName ++ "=" ++ keyValue).toList
    String.mk (joinChars (pre ++ [repl] ++ post))
  | none => content ++ keyName ++ "=" ++ keyValue ++ "\n"

/-- Concrete primitive instantiation used for evaluating the embedding on
closed inputs: an invertible toy cipher that prefixes two marker characters,
and an injective-in-the-message keyed hash. -/
def cPrims : CryptoPrims where
  argon2 := fun secretKey salt => "KY" ++ secretKey ++ salt
  aesEnc := fun value _ _ => "CT" ++ value
  aesDec := fun cipherText _ _ => String.mk (cipherText.toList.drop 2)
  hmacSha256 := fun message _ => "H" ++ message

/-- Concrete per-line salt stream for closed evaluations. -/
def cSalts : Nat → String := fun _ => "SALT"

/-- Concrete per-line IV stream for closed evaluations. -/
def cIvs : Nat → String := fun _ => "IV"

/-- Concrete random source modelling Node `crypto.randomBytes(n)` followed by
base64 encoding: negative sizes raise a range error, size zero yields the
empty buffer and hence the empty string. -/
def cRandom : RandomBase64 := fun length =>
  if length < 0 then .error "RangeError: size is out of range"
  else .ok (String.mk (List.replicate length.toNat 'A'))

/-- C5 counterexample: with the random source modelled after Node
`crypto.randomBytes`, `generateSecretKey 0` succeeds with the empty string
instead of failing with an invalid-length error, while `generateSalt 0` and
`generateIvAsBase64 0` both reject the length — so `generateSecretKey` does
not have the same contract. -/
theorem c5_counterexample :
    generateSecretKey cRandom 0 = .ok "" ∧
    generateSalt cRandom 0 = .error "Salt length must be greater than zero." ∧
    generateIvAsBase64 cRandom 0 = .error "IV length must be greater than zero." :=
  ⟨rfl, rfl, rfl⟩

/-- C5 amended: `generateSecretKey` performs no length validation at all — it
consults the random source directly for every length — whereas `generateSalt`
and `generateIvAsBase64` reject every length at most zero before consulting
the random source and defer to it on positive lengths. -/
theorem c5_no_length_check (rnd : RandomBase64) (len : Int) :
    generateSecretKey rnd len = rnd len ∧
    (len ≤ 0 →
      generateSalt rnd len = .error "Salt length must be greater than zero." ∧
      generateIvAsBase64 rnd len = .error "IV length must be greater than zero.") ∧
    (0 < len →
      generateSalt rnd len = rnd len ∧ generateIvAsBase64 rnd len = rnd len) := by
  refine ⟨rfl, fun h => ⟨?_, ?_⟩, fun h => ⟨?_, ?_⟩⟩
  · simp [generateSalt, h]
  · simp [generateIvAsBase64, h]
  · simp [generateSalt, show ¬ len ≤ 0 by omega]
  · simp [generateIvAsBase64, show ¬ len ≤ 0 by omega]

/-- C5 witness: the amended contract evaluated at concrete lengths. -/
theorem c5_no_length_check_witness :
    generateSecretKey cRandom 0 = cRandom 0 ∧
    generateSalt cRandom 0 = .error "Salt length must be greater than zero." ∧
    generateSalt cRandom 7 = cRandom 7 :=
  ⟨(c5_no_length_check cRandom 0).1,
   ((c5_no_length_check cRandom 0).2.1 (by decide)).1,
   ((c5_no_length_check cRandom 7).2.2 (by decide)).1⟩

/-- C6: when every line of the input file is blank or whitespace-only,
`encryptEnvVariables` fails with the empty-file error, which is raised by
`encryptLines` before the write step, so the stored file content is
unchanged. -/
theorem c6_empty_file_rejected (p : CryptoPrims) (secretKey : String)
    (salts ivs : Nat → String) (file : String)
    (h : ∀ l ∈ splitLinesStr file, strTrim l = "") :
    encryptEnvVariables p secretKey salts ivs file = .error emptyFileMsg ∧
    finalFileContent p secretKey salts ivs file = file := by
  have hall : ((splitLinesStr file).all fun line => strTrim line = "") = true := by
    rw [List.all_eq_true]
    intro x hx
    exact decide_eq_true (h x hx)
  have henc : encryptLines p secretKey salts ivs (splitLinesStr file) = .error emptyFileMsg := by
    unfold encryptLines
    rw [if_pos hall]
  constructor
  · unfold encryptEnvVariables
    rw [henc]
  · unfold finalFileContent encryptEnvVariables
    rw [henc]

/-- C6 witness: a file of one whitespace line and one empty line is rejected
with the empty-file error and left unchanged. -/
theorem c6_empty_file_rejected_witness :
    (∀ l ∈ splitLinesStr " \t\n ", strTrim l = "") ∧
    encryptEnvVariables cPrims "sk" cSalts cIvs " \t\n " = .error emptyFileMsg ∧
    finalFileContent cPrims "sk" cSalts cIvs " \t\n " = " \t\n " :=
  ⟨by decide,
   (c6_empty_file_rejected cPrims "sk" cSalts cIvs " \t\n " (by decide)).1,
   (c6_empty_file_rejected cPrims "sk" cSalts cIvs " \t\n " (by decide)).2⟩

/-- Output lines contributed by a line list starting at a given index. -/
def outsFrom (p : CryptoPrims) (secretKey : String) (salts ivs : Nat → String) :
    Nat → List String → List String
  | _, [] => []
  | i, l :: rest => lineOut p secretKey salts ivs i l ++ outsFrom p secretKey salts ivs (i + 1) rest

/-- Format diagnostics contributed by a line list starting at a given index. -/
def errsFrom : Nat → List String → List String
  | _, [] => []
  | i, l :: rest => lineErrs i l ++ errsFrom (i + 1) rest

theorem encryptLinesGo_spec (p : CryptoPrims) (secretKey : String)
    (salts ivs : Nat → String) :
    ∀ (lines : List String) (i : Nat) (outs errs : List String),
      encryptLinesGo p secretKey salts ivs lines i outs errs =
        (outs ++ outsFrom p secretKey salts ivs i lines, errs ++ errsFrom i lines) := by
  intro lines
  induction lines with
  | nil => intro i outs errs; simp [encryptLinesGo, outsFrom, errsFrom]
  | cons l rest ih =>
    intro i outs errs
    rw [show encryptLinesGo p secretKey salts ivs (l :: rest) i outs errs =
          encryptLinesGo p secretKey salts ivs rest (i + 1)
            (outs ++ lineOut p secretKey salts ivs i l) (errs ++ lineErrs i l) from rfl,
        ih]
    simp [outsFrom, errsFrom]

theorem encryptLines_eq (p : CryptoPrims) (secretKey : String)
    (salts ivs : Nat → String) (lines : List String)
    (h : ¬ (lines.all fun line => strTrim line = "") = true) :
    encryptLines p secretKey salts ivs lines =
      .ok (outsFrom p secretKey salts ivs 0 lines, errsFrom 0 lines) := by
  unfold encryptLines
  rw [if_neg h, encryptLinesGo_spec]
  simp

theorem outsFrom_append (p : CryptoPrims) (secretKey : String)
    (salts ivs : Nat → String) :
    ∀ (ls1 ls2 : List String) (i : Nat),
      outsFrom p secretKey salts ivs i (ls1 ++ ls2) =
        outsFrom p secretKey salts ivs i ls1 ++
          outsFrom p secretKey salts ivs (i + ls1.length) ls2 := by
  intro ls1
  induction ls1 with
  | nil => intro ls2 i; simp [outsFrom]
  | cons l rest ih =>
    intro ls2 i
    have h : i + (rest.length + 1) = i + 1 + rest.length := by omega
    simp only [List.cons_append, outsFrom, List.length_cons, List.append_eq, h, ih,
      List.append_assoc]

theorem errsFrom_append :
    ∀ (ls1 ls2 : List String) (i : Nat),
      errsFrom i (ls1 ++ ls2) = errsFrom i ls1 ++ errsFrom (i + ls1.length) ls2 := by
  intro ls1
  induction ls1 with
  | nil => intro ls2 i; simp [errsFrom]
  | cons l rest ih =>
    intro ls2 i
    have h : i + (rest.length + 1) = i + 1 + rest.length := by omega
    simp only [List.cons_append, errsFrom, List.length_cons, List.append_eq, h, ih,
      List.append_assoc]

theorem strMk_toList (s : String) : String.mk s.toList = s := rfl

theorem lineOut_blank (p : CryptoPrims) (secretKey : String)
    (salts ivs : Nat → String) (i : Nat) (b : String) (hb : strTrim b = "") :
    lineOut p secretKey salts ivs i b = [""] := by
  simp [lineOut, hb]

theorem lineErrs_blank (i : Nat) (b : String) (hb : strTrim b = "") :
    lineErrs i b = [] := by
  simp [lineErrs, hb]

theorem lineOut_noEq (p : CryptoPrims) (secretKey : String)
    (salts ivs : Nat → String) (i : Nat) (m : String)
    (hm1 : ¬ strTrim m = "") (hm2 : (strTrim m).toList.contains '=' = false) :
    lineOut p secretKey salts ivs i m = [] := by
  have hm2' : '=' ∉ (strTrim m).data := by simpa using hm2
  simp [lineOut, hm1, hm2']

theorem lineErrs_noEq (i : Nat) (m : String)
    (hm1 : ¬ strTrim m = "") (hm2 : (strTrim m).toList.contains '=' = false) :
    lineErrs i m = [handleInvalidFormatError i m] := by
  have hm2' : '=' ∉ (strTrim m).data := by simpa using hm2
  simp [lineErrs, hm1, hm2']

/-- C4 counterexample: a whitespace-only input line is not preserved
verbatim — `encryptLines` emits the empty string in its place. -/
theorem c4_counterexample :
    encryptLines cPrims "sk" cSalts cIvs [" ", "K=v"] =
      .ok (["", "K=" ++ stringifyEnvelope (encrypt cPrims "v" "sk" "SALT" "IV")], []) ∧
    "" ≠ " " :=
  ⟨rfl, by decide⟩

/-- C4 amended: every blank (empty or whitespace-only) input line contributes
exactly the empty string at its original position in the output — an empty
line is hence preserved verbatim, while a whitespace-only line loses its
whitespace characters. -/
theorem c4_blank_line (p : CryptoPrims) (secretKey : String)
    (salts ivs : Nat → String) (ls1 ls2 : List String) (b : String)
    (hb : strTrim b = "")
    (hne : ¬ ((ls1 ++ b :: ls2).all fun line => strTrim line = "") = true) :
    encryptLines p secretKey salts ivs (ls1 ++ b :: ls2) =
      .ok (outsFrom p secretKey salts ivs 0 ls1 ++ [""] ++
             outsFrom p secretKey salts ivs (ls1.length + 1) ls2,
           errsFrom 0 ls1 ++ errsFrom (ls1.length + 1) ls2) := by
  rw [encryptLines_eq p secretKey salts ivs _ hne, outsFrom_append, errsFrom_append]
  simp [outsFrom, errsFrom, lineOut_blank p secretKey salts ivs _ b hb, lineErrs_blank _ b hb,
    Nat.add_comm]

/-- C4 witness: a whitespace-only line between two assignments becomes the
empty string at its position. -/
theorem c4_blank_line_witness :
    encryptLines cPrims "sk" cSalts cIvs (["A=1"] ++ [" "] ++ ["B=2"]) =
      .ok (outsFrom cPrims "sk" cSalts cIvs 0 ["A=1"] ++ [""] ++
             outsFrom cPrims "sk" cSalts cIvs 2 ["B=2"],
           errsFrom 0 ["A=1"] ++ errsFrom 2 ["B=2"]) :=
  c4_blank_line cPrims "sk" cSalts cIvs ["A=1"] ["B=2"] " " (by decide) (by decide)

/-- C7: a non-blank line without `=` contributes exactly one diagnostic
carrying the 1-based index and the raw line, is dropped from the output, and
the surrounding lines are still processed, with `encryptLines` returning
successfully so the collected diagnostics are reported as one batch without
aborting. -/
theorem c7_malformed_line (p : CryptoPrims) (secretKey : String)
    (salts ivs : Nat → String) (ls1 ls2 : List String) (m : String)
    (hm1 : ¬ strTrim m = "") (hm2 : (strTrim m).toList.contains '=' = false)
    (hne : ¬ ((ls1 ++ m :: ls2).all fun line => strTrim line = "") = true) :
    encryptLines p secretKey salts ivs (ls1 ++ m :: ls2) =
      .ok (outsFrom p secretKey salts ivs 0 ls1 ++
             outsFrom p secretKey salts ivs (ls1.length + 1) ls2,
           errsFrom 0 ls1 ++ [handleInvalidFormatError ls1.length m] ++
             errsFrom (ls1.length + 1) ls2) := by
  rw [encryptLines_eq p secretKey salts ivs _ hne, outsFrom_append, errsFrom_append]
  simp [outsFrom, errsFrom, lineOut_noEq p secretKey salts ivs _ m hm1 hm2,
    lineErrs_noEq _ m hm1 hm2, Nat.add_comm]

/-- C7 witness: the spec's example file, with `badline` at 1-based index 4. -/
theorem c7_malformed_line_witness :
    encryptLines cPrims "sk" cSalts cIvs (["A=1", "", "B=2"] ++ ["badline"] ++ []) =
      .ok (outsFrom cPrims "sk" cSalts cIvs 0 ["A=1", "", "B=2"] ++
             outsFrom cPrims "sk" cSalts cIvs 4 [],
           errsFrom 0 ["A=1", "", "B=2"] ++ ["Line 4 doesn't contain any variables or has invalid format: badline"] ++
             errsFrom 4 []) := by
  have h := c7_malformed_line cPrims "sk" cSalts cIvs ["A=1", "", "B=2"] [] "badline"
    (by decide) (by decide) (by decide)
  simpa using h

/-- C3 counterexample: for the line `K=a=b` the transform encrypts only the
segment `a` between the first and second `=`, not the full remainder `a=b`
of the line after the first `=`; the two envelopes differ. -/
theorem c3_counterexample :
    encryptLines cPrims "sk" cSalts cIvs ["K=a=b"] =
      .ok (["K=" ++ stringifyEnvelope (encrypt cPrims "a" "sk" "SALT" "IV")], []) ∧
    stringifyEnvelope (encrypt cPrims "a" "sk" "SALT" "IV") ≠
      stringifyEnvelope (encrypt cPrims "a=b" "sk" "SALT" "IV") :=
  ⟨rfl, by decide⟩

theorem lineOut_assign (p : CryptoPrims) (secretKey : String)
    (salts ivs : Nat → String) (i : Nat) (line key value : String)
    (restp : List (List Char))
    (hsp : splitEq (strTrim line).toList = key.toList :: value.toList :: restp)
    (hv : value ≠ "")
    (hc : (strTrim line).toList.contains '=' = true) :
    lineOut p secretKey salts ivs i line =
      [key ++ "=" ++
        stringifyEnvelope (encrypt p (strTrim value) secretKey (salts i) (ivs i))] := by
  have h1 : ¬ strTrim line = "" := by
    intro h
    rw [h] at hc
    simp at hc
  unfold lineOut
  rw [if_neg h1, if_neg (not_not_intro hc), hsp]
  simp only [strMk_toList]
  rw [if_pos hv]

theorem lineErrs_assign (i : Nat) (line : String)
    (hc : (strTrim line).toList.contains '=' = true) :
    lineErrs i line = [] := by
  have h1 : ¬ strTrim line = "" := by
    intro h
    rw [h] at hc
    simp at hc
  have hc' : '=' ∈ (strTrim line).data := by simpa using hc
  simp [lineErrs, h1, hc']

/-- C3 amended: a line whose trimmed form contains `=` and whose segment
between the first and second `=` is non-empty is split by `=`; the key is the
text before the first `=`, the encrypted value is the trimmed segment between
the first and the second `=` (the whole remainder only when no second `=`
exists), and the emitted line is `key=<serializedEnvelope>`. -/
theorem c3_split_first_two_segments (p : CryptoPrims) (secretKey : String)
    (salts ivs : Nat → String) (ls1 ls2 : List String) (line key value : String)
    (restp : List (List Char))
    (hsp : splitEq (strTrim line).toList = key.toList :: value.toList :: restp)
    (hv : value ≠ "")
    (hc : (strTrim line).toList.contains '=' = true)
    (hne : ¬ ((ls1 ++ line :: ls2).all fun l => strTrim l = "") = true) :
    encryptLines p secretKey salts ivs (ls1 ++ line :: ls2) =
      .ok (outsFrom p secretKey salts ivs 0 ls1 ++
             [key ++ "=" ++
               stringifyEnvelope
                 (encrypt p (strTrim value) secretKey (salts ls1.length) (ivs ls1.length))] ++
             outsFrom p secretKey salts ivs (ls1.length + 1) ls2,
           errsFrom 0 ls1 ++ errsFrom (ls1.length + 1) ls2) := by
  rw [encryptLines_eq p secretKey salts ivs _ hne, outsFrom_append, errsFrom_append]
  simp [outsFrom, errsFrom,
    lineOut_assign p secretKey salts ivs _ line key value restp hsp hv hc,
    lineErrs_assign _ line hc, Nat.add_comm]

/-- C3 witness: the amended split behaviour on the line `K=a=b`, whose
encrypted value is `a`. -/
theorem c3_split_first_two_segments_witness :
    encryptLines cPrims "sk" cSalts cIvs ([] ++ ["K=a=b"] ++ []) =
      .ok (outsFrom cPrims "sk" cSalts cIvs 0 [] ++
             ["K=" ++ stringifyEnvelope (encrypt cPrims (strTrim "a") "sk" "SALT" "IV")] ++
             outsFrom cPrims "sk" cSalts cIvs 1 [],
           errsFrom 0 [] ++ errsFrom 1 []) := by
  have h := c3_split_first_two_segments cPrims "sk" cSalts cIvs [] [] "K=a=b" "K" "a"
    [['b']] (by decide) (by decide) (by decide) (by decide)
  simpa using h

theorem outsFrom_all_dropped (p : CryptoPrims) (secretKey : String)
    (salts ivs : Nat → String) :
    ∀ (lines : List String) (i : Nat),
      (∀ l ∈ lines, ¬ strTrim l = "" → (strTrim l).toList.contains '=' = false) →
      outsFrom p secretKey salts ivs i lines =
        List.replicate (lines.countP fun l => strTrim l = "") "" := by
  intro lines
  induction lines with
  | nil => intro i _; simp [outsFrom]
  | cons l rest ih =>
    intro i h
    have hrest := fun x hx => h x (List.mem_cons_of_mem l hx)
    by_cases hb : strTrim l = ""
    · simp [outsFrom, lineOut_blank p secretKey salts ivs i l hb, ih (i + 1) hrest,
        List.countP_cons, hb, List.replicate_succ]
    · have hm2 := h l (List.mem_cons_self l rest) hb
      simp [outsFrom, lineOut_noEq p secretKey salts ivs i l hb hm2, ih (i + 1) hrest,
        List.countP_cons, hb]

/-- C10: for a file with at least one non-blank line in which every non-blank
line lacks `=` (and is therefore dropped) and at most one line is blank, the
transform succeeds with output lines that join to the empty string, so the
write step rejects the content with the empty-content error of the file-store
write helper and the stored file is unchanged. -/
theorem c10_empty_output_write_rejected (p : CryptoPrims) (secretKey : String)
    (salts ivs : Nat → String) (file : String)
    (h1 : ∃ l ∈ splitLinesStr file, ¬ strTrim l = "")
    (h2 : ∀ l ∈ splitLinesStr file, ¬ strTrim l = "" → (strTrim l).toList.contains '=' = false)
    (h3 : ((splitLinesStr file).countP fun l => strTrim l = "") ≤ 1) :
    encryptEnvVariables p secretKey salts ivs file =
      .error "No content provided for file: utf8" ∧
    finalFileContent p secretKey salts ivs file = file := by
  obtain ⟨l0, hl0, hl0ne⟩ := h1
  have hne : ¬ ((splitLinesStr file).all fun line => strTrim line = "") = true := by
    intro hall
    rw [List.all_eq_true] at hall
    exact hl0ne (of_decide_eq_true (hall l0 hl0))
  have hmain : encryptEnvVariables p secretKey salts ivs file =
      .error "No content provided for file: utf8" := by
    unfold encryptEnvVariables
    rw [encryptLines_eq p secretKey salts ivs _ hne,
      outsFrom_all_dropped p secretKey salts ivs _ 0 h2]
    rcases hk : ((splitLinesStr file).countP fun l => strTrim l = "") with _ | k
    · rfl
    · rcases k with _ | k
      · rfl
      · rw [hk] at h3
        omega
  exact ⟨hmain, by unfold finalFileContent; rw [hmain]⟩

/-- C10 witness: a single malformed line produces no output and the write is
rejected, leaving the file unchanged. -/
theorem c10_empty_output_write_rejected_witness :
    encryptEnvVariables cPrims "sk" cSalts cIvs "badline" =
      .error "No content provided for file: utf8" ∧
    finalFileContent cPrims "sk" cSalts cIvs "badline" = "badline" :=
  c10_empty_output_write_rejected cPrims "sk" cSalts cIvs "badline"
    (by decide) (by decide) (by decide)

/-- Characters that a JSON string can carry without escaping (in the modelled
fragment): anything except the quote and the backslash. -/
def SafeChars (l : List Char) : Prop :=
  ∀ c ∈ l, c ≠ '"' ∧ c ≠ '\\'

/-- Envelope fields produced by the pipeline (base64 and hex strings) contain
only characters that need no JSON escaping. -/
def SafeField (s : String) : Prop :=
  SafeChars s.toList

theorem strToList_append (a b : String) : (a ++ b).toList = a.toList ++ b.toList := rfl

instance (l : List Char) : Decidable (SafeChars l) := by
  unfold SafeChars
  infer_instance

instance (s : String) : Decidable (SafeField s) := by
  unfold SafeField
  infer_instance

theorem parseStrBody_safe :
    ∀ (l rest : List Char), SafeChars l →
      parseStrBody (l ++ '"' :: rest) = some (l, rest) := by
  intro l
  induction l with
  | nil =>
    intro rest _
    rw [parseStrBody.eq_def]
    simp
  | cons c l ih =>
    intro rest h
    obtain ⟨h1, h2⟩ := h c (List.mem_cons_self c l)
    have hsafe : SafeChars l := fun x hx => h x (List.mem_cons_of_mem c hx)
    rw [List.cons_append, parseStrBody.eq_def]
    simp [h1, h2, ih rest hsafe]

theorem parseMember_encode (kcs vcs tail : List Char)
    (hk : SafeChars kcs) (hv : SafeChars vcs) :
    parseMember ('"' :: (kcs ++ '"' :: ':' :: '"' :: (vcs ++ '"' :: tail))) =
      some (String.mk kcs, .str (String.mk vcs), tail) := by
  simp [parseMember, parsePrim, parseStrBody_safe kcs _ hk, parseStrBody_safe vcs tail hv]

theorem parseMembers_cons_general (fuel : Nat) (kcs vcs rest : List Char)
    (r : List (String × JPrim) × List Char)
    (hk : SafeChars kcs) (hv : SafeChars vcs)
    (h : parseMembers fuel rest = some r) :
    parseMembers (fuel + 1) ('"' :: (kcs ++ '"' :: ':' :: '"' :: (vcs ++ '"' :: ',' :: rest))) =
      some ((String.mk kcs, JPrim.str (String.mk vcs)) :: r.1, r.2) := by
  simp [parseMembers, parseMember_encode kcs vcs (',' :: rest) hk hv, h]

theorem parseMembers_last_general (fuel : Nat) (kcs vcs rest : List Char)
    (hk : SafeChars kcs) (hv : SafeChars vcs) :
    parseMembers (fuel + 1) ('"' :: (kcs ++ '"' :: ':' :: '"' :: (vcs ++ '"' :: rbrace :: rest))) =
      some ([(String.mk kcs, JPrim.str (String.mk vcs))], rest) := by
  have h1 : (rbrace == ',') = false := by decide
  have h2 : (rbrace == rbrace) = true := by decide
  simp [parseMembers, parseMember_encode kcs vcs (rbrace :: rest) hk hv, h1, h2]

theorem parseMembers_envelope (m : Nat) (s i c k : List Char)
    (hs : SafeChars s) (hi : SafeChars i) (hc : SafeChars c) (hk : SafeChars k) :
    parseMembers (m + 4)
      ('"' :: ("salt".toList ++ '"' :: ':' :: '"' :: (s ++ '"' :: ',' ::
        '"' :: ("iv".toList ++ '"' :: ':' :: '"' :: (i ++ '"' :: ',' ::
        '"' :: ("cipherText".toList ++ '"' :: ':' :: '"' :: (c ++ '"' :: ',' ::
        '"' :: ("mac".toList ++ '"' :: ':' :: '"' :: (k ++ '"' :: rbrace :: []))))))))) =
      some ([("salt", JPrim.str (String.mk s)), ("iv", JPrim.str (String.mk i)),
             ("cipherText", JPrim.str (String.mk c)), ("mac", JPrim.str (String.mk k))], []) := by
  have l4 := parseMembers_last_general m "mac".toList k [] (by decide) hk
  have l3 := parseMembers_cons_general (m + 1) "cipherText".toList c _ _ (by decide) hc l4
  have l2 := parseMembers_cons_general (m + 2) "iv".toList i _ _ (by decide) hi l3
  have l1 := parseMembers_cons_general (m + 3) "salt".toList s _ _ (by decide) hs l2
  exact l1

theorem stringifyEnvelope_toList (e : EncryptionParams) :
    (stringifyEnvelope e).toList =
      lbrace :: '"' :: ("salt".toList ++ '"' :: ':' :: '"' :: (e.salt.toList ++ '"' :: ',' ::
        '"' :: ("iv".toList ++ '"' :: ':' :: '"' :: (e.iv.toList ++ '"' :: ',' ::
        '"' :: ("cipherText".toList ++ '"' :: ':' :: '"' :: (e.cipherText.toList ++ '"' :: ',' ::
        '"' :: ("mac".toList ++ '"' :: ':' :: '"' :: (e.mac.toList ++ '"' :: rbrace :: [])))))))) := by
  simp [stringifyEnvelope, strToList_append, lbrace, rbrace]

theorem parseMembers_fuel_ge (fuel : Nat) (h4 : 4 ≤ fuel) (s i c k : List Char)
    (hs : SafeChars s) (hi : SafeChars i) (hc : SafeChars c) (hk : SafeChars k) :
    parseMembers fuel
      ('"' :: ("salt".toList ++ '"' :: ':' :: '"' :: (s ++ '"' :: ',' ::
        '"' :: ("iv".toList ++ '"' :: ':' :: '"' :: (i ++ '"' :: ',' ::
        '"' :: ("cipherText".toList ++ '"' :: ':' :: '"' :: (c ++ '"' :: ',' ::
        '"' :: ("mac".toList ++ '"' :: ':' :: '"' :: (k ++ '"' :: rbrace :: []))))))))) =
      some ([("salt", JPrim.str (String.mk s)), ("iv", JPrim.str (String.mk i)),
             ("cipherText", JPrim.str (String.mk c)), ("mac", JPrim.str (String.mk k))], []) := by
  obtain ⟨m, rfl⟩ : ∃ m, fuel = m + 4 := ⟨fuel - 4, by omega⟩
  exact parseMembers_envelope m s i c k hs hi hc hk

theorem parseJson_of_obj (s : String) (R : List Char) (kvs : List (String × JPrim))
    (hs : s.toList = lbrace :: R)
    (hR : R ≠ [rbrace])
    (hp : parseMembers (R.length + 1) R = some (kvs, [])) :
    parseJson s = some (.obj kvs) := by
  unfold parseJson
  rw [hs]
  have hRne : (R == [rbrace]) = false := beq_eq_false_iff_ne.mpr hR
  simp only [beq_self_eq_true, if_true, hRne, if_false, hp]
  simp

theorem parseJson_stringifyEnvelope (e : EncryptionParams)
    (hs : SafeField e.salt) (hi : SafeField e.iv) (hc : SafeField e.cipherText)
    (hm : SafeField e.mac) :
    parseJson (stringifyEnvelope e) =
      some (.obj [("salt", .str e.salt), ("iv", .str e.iv),
                  ("cipherText", .str e.cipherText), ("mac", .str e.mac)]) := by
  have hmem := parseMembers_fuel_ge
    (('"' :: ("salt".toList ++ '"' :: ':' :: '"' :: (e.salt.toList ++ '"' :: ',' ::
      '"' :: ("iv".toList ++ '"' :: ':' :: '"' :: (e.iv.toList ++ '"' :: ',' ::
      '"' :: ("cipherText".toList ++ '"' :: ':' :: '"' :: (e.cipherText.toList ++ '"' :: ',' ::
      '"' :: ("mac".toList ++ '"' :: ':' :: '"' :: (e.mac.toList ++ '"' :: rbrace :: []))))))))).length + 1)
    (by simp) e.salt.toList e.iv.toList e.cipherText.toList e.mac.toList hs hi hc hm
  have h := parseJson_of_obj (stringifyEnvelope e) _ _ (stringifyEnvelope_toList e)
    (by simp) hmem
  simpa [strMk_toList] using h

theorem parseEncryptedData_stringify (e : EncryptionParams)
    (hsa : SafeField e.salt) (hiv : SafeField e.iv) (hct : SafeField e.cipherText)
    (hma : SafeField e.mac)
    (hs0 : e.salt ≠ "") (hi0 : e.iv ≠ "") (hc0 : e.cipherText ≠ "") (hm0 : e.mac ≠ "") :
    parseEncryptedData (stringifyEnvelope e) = .ok e := by
  have hne : stringifyEnvelope e ≠ "" := by
    intro h
    have h2 := congrArg String.toList h
    rw [stringifyEnvelope_toList] at h2
    simp at h2
  have f1 : (("iv" : String) == "salt") = false := by decide
  have f2 : (("cipherText" : String) == "salt") = false := by decide
  have f3 : (("cipherText" : String) == "iv") = false := by decide
  have f4 : (("mac" : String) == "salt") = false := by decide
  have f5 : (("mac" : String) == "iv") = false := by decide
  have f6 : (("mac" : String) == "cipherText") = false := by decide
  unfold parseEncryptedData
  rw [if_neg hne, parseJson_stringifyEnvelope e hsa hiv hct hma]
  unfold validateParsedData Json.getStr
  simp only [List.lookup, beq_self_eq_true, f1, f2, f3, f4, f5, f6, if_true, if_false]
  rw [if_neg]
  simp [hs0, hi0, hc0, hm0]

/-- C1 counterexample: for the empty plaintext the round trip does not return
the plaintext — decryption of a faithfully produced envelope of `""` fails
with the empty-result error that `CryptoService.decrypt` raises after
checking `!decrypted`. -/
theorem c1_counterexample :
    decrypt cPrims (stringifyEnvelope (encrypt cPrims "" "sk" "SALT" "IV")) "sk" =
      .error emptyDecryptMsg ∧
    decrypt cPrims (stringifyEnvelope (encrypt cPrims "" "sk" "SALT" "IV")) "sk" ≠
      .ok "" :=
  ⟨rfl, fun h => Except.noConfusion h⟩

/-- C1 amended: for every non-empty plaintext `v` and secret key, decrypting
the JSON-serialized result of `encrypt` under the same key returns `v`,
provided the abstracted cipher is inverse on these arguments and the
generated fields are non-empty JSON-safe strings (as base64/hex outputs
are); for the empty plaintext the decrypt call instead fails with the
empty-result error. -/
theorem c1_roundtrip (p : CryptoPrims) (v secretKey salt iv : String)
    (hv : v ≠ "")
    (hinv : p.aesDec (p.aesEnc v (p.argon2 secretKey salt) iv)
      (p.argon2 secretKey salt) iv = v)
    (hsa : SafeField salt) (hiv : SafeField iv)
    (hct : SafeField (p.aesEnc v (p.argon2 secretKey salt) iv))
    (hma : SafeField (generateMac p salt iv
      (p.aesEnc v (p.argon2 secretKey salt) iv) (p.argon2 secretKey salt)))
    (hs0 : salt ≠ "") (hi0 : iv ≠ "")
    (hc0 : p.aesEnc v (p.argon2 secretKey salt) iv ≠ "")
    (hm0 : generateMac p salt iv (p.aesEnc v (p.argon2 secretKey salt) iv)
      (p.argon2 secretKey salt) ≠ "") :
    decrypt p (stringifyEnvelope (encrypt p v secretKey salt iv)) secretKey = .ok v := by
  have hparse := parseEncryptedData_stringify (encrypt p v secretKey salt iv)
    hsa hiv hct hma hs0 hi0 hc0 hm0
  unfold decrypt
  rw [hparse]
  simp only [encrypt]
  unfold verifyMac
  rw [if_neg (not_not_intro rfl)]
  rw [hinv, if_neg hv]

/-- C1 witness: the amended round trip evaluated on a concrete plaintext. -/
theorem c1_roundtrip_witness :
    decrypt cPrims (stringifyEnvelope (encrypt cPrims "hello" "sk" "SALT" "IV")) "sk" =
      .ok "hello" :=
  c1_roundtrip cPrims "hello" "sk" "SALT" "IV" (by decide) rfl (by decide) (by decide)
    (by decide) (by decide) (by decide) (by decide) (by decide) (by decide)

/-- C2: decrypt recomputes the HMAC of `salt:iv:cipherText` under the derived
key and compares it with the stored `mac` before any decryption: (a) for
every parsed envelope whose stored mac differs from the recomputed one the
call fails with the integrity error and never returns a plaintext; (b) an
envelope produced by `encrypt` whose `mac` field is replaced by any different
value fails the same way; (c) an envelope produced by `encrypt` whose
`cipherText` field is replaced by a value whose recomputed HMAC differs —
which a single-character change makes true for HMAC-SHA256 — fails the same
way. -/
theorem c2_tamper_detection :
    (∀ (p : CryptoPrims) (secretKey s : String) (e : EncryptionParams),
      parseEncryptedData s = .ok e →
      generateMac p e.salt e.iv e.cipherText (p.argon2 secretKey e.salt) ≠ e.mac →
      decrypt p s secretKey = .error macMismatchMsg) ∧
    (∀ (p : CryptoPrims) (v secretKey salt iv mac' : String),
      SafeField salt → SafeField iv →
      SafeField (p.aesEnc v (p.argon2 secretKey salt) iv) → SafeField mac' →
      salt ≠ "" → iv ≠ "" → p.aesEnc v (p.argon2 secretKey salt) iv ≠ "" → mac' ≠ "" →
      mac' ≠ generateMac p salt iv (p.aesEnc v (p.argon2 secretKey salt) iv)
        (p.argon2 secretKey salt) →
      decrypt p (stringifyEnvelope { encrypt p v secretKey salt iv with mac := mac' })
        secretKey = .error macMismatchMsg) ∧
    (∀ (p : CryptoPrims) (v secretKey salt iv ct' : String),
      SafeField salt → SafeField iv → SafeField ct' →
      SafeField (generateMac p salt iv (p.aesEnc v (p.argon2 secretKey salt) iv)
        (p.argon2 secretKey salt)) →
      salt ≠ "" → iv ≠ "" → ct' ≠ "" →
      generateMac p salt iv (p.aesEnc v (p.argon2 secretKey salt) iv)
        (p.argon2 secretKey salt) ≠ "" →
      generateMac p salt iv ct' (p.argon2 secretKey salt) ≠
        generateMac p salt iv (p.aesEnc v (p.argon2 secretKey salt) iv)
          (p.argon2 secretKey salt) →
      decrypt p (stringifyEnvelope { encrypt p v secretKey salt iv with cipherText := ct' })
        secretKey = .error macMismatchMsg) := by
  refine ⟨?_, ?_, ?_⟩
  · intro p secretKey s e hparse hmac
    unfold decrypt
    rw [hparse]
    simp only []
    unfold verifyMac
    rw [if_pos hmac]
  · intro p v secretKey salt iv mac' hsa hiv hct hma hs0 hi0 hc0 hm0 hne
    have hparse := parseEncryptedData_stringify
      { encrypt p v secretKey salt iv with mac := mac' }
      hsa hiv hct hma hs0 hi0 hc0 hm0
    unfold decrypt
    rw [hparse]
    simp only [encrypt]
    unfold verifyMac
    rw [if_pos (Ne.symm hne)]
  · intro p v secretKey salt iv ct' hsa hiv hct hma hs0 hi0 hc0 hm0 hne
    have hparse := parseEncryptedData_stringify
      { encrypt p v secretKey salt iv with cipherText := ct' }
      hsa hiv hct hma hs0 hi0 hc0 hm0
    unfold decrypt
    rw [hparse]
    simp only [encrypt]
    unfold verifyMac
    rw [if_pos hne]

/-- C2 witness: concrete tampered envelopes — a changed `mac` field and a
changed `cipherText` field — are both rejected with the integrity error. -/
theorem c2_tamper_detection_witness :
    decrypt cPrims
      (stringifyEnvelope { encrypt cPrims "hello" "sk" "SALT" "IV" with mac := "HX" })
      "sk" = .error macMismatchMsg ∧
    decrypt cPrims
      (stringifyEnvelope { encrypt cPrims "hello" "sk" "SALT" "IV" with cipherText := "CTx" })
      "sk" = .error macMismatchMsg :=
  ⟨c2_tamper_detection.2.1 cPrims "hello" "sk" "SALT" "IV" "HX" (by decide) (by decide)
      (by decide) (by decide) (by decide) (by decide) (by decide) (by decide) (by decide),
   c2_tamper_detection.2.2 cPrims "hello" "sk" "SALT" "IV" "CTx" (by decide) (by decide)
      (by decide) (by decide) (by decide) (by decide) (by decide) (by decide) (by decide)⟩

/-- C9: for every input that is empty, unparseable, or parsed with one of the
four required fields missing, `decrypt` fails with an error whose value is
independent of every cryptographic primitive — the failure happens before key
derivation or any other cryptographic operation can contribute. -/
theorem c9_malformed_rejected_before_crypto (s secretKey : String)
    (h : s = "" ∨ parseJson s = none ∨
      ∃ j, parseJson s = some j ∧
        (j.getStr "salt" = none ∨ j.getStr "iv" = none ∨
         j.getStr "cipherText" = none ∨ j.getStr "mac" = none)) :
    ∀ p p' : CryptoPrims,
      decrypt p s secretKey = decrypt p' s secretKey ∧
      ∃ msg, decrypt p s secretKey = .error msg := by
  have hped : ∃ msg, parseEncryptedData s = .error msg := by
    rcases h with h | h | ⟨j, hj, hmiss⟩
    · exact ⟨"Encrypted data is required.", by unfold parseEncryptedData; rw [if_pos h]⟩
    · by_cases hs : s = ""
      · exact ⟨"Encrypted data is required.", by unfold parseEncryptedData; rw [if_pos hs]⟩
      · exact ⟨"Unexpected token in JSON input.", by
          unfold parseEncryptedData; rw [if_neg hs, h]⟩
    · have hs : s ≠ "" := by
        intro h0
        rw [h0] at hj
        exact Option.noConfusion ((rfl : parseJson "" = none).symm.trans hj)
      refine ⟨missingPropsMsg, ?_⟩
      unfold parseEncryptedData
      rw [if_neg hs, hj]
      unfold validateParsedData
      rcases h1 : j.getStr "salt" with _ | vs <;>
        rcases h2 : j.getStr "iv" with _ | vi <;>
          rcases h3 : j.getStr "cipherText" with _ | vc <;>
            rcases h4 : j.getStr "mac" with _ | vm <;>
              simp_all
  obtain ⟨msg, hmsg⟩ := hped
  have hd : ∀ q : CryptoPrims, decrypt q s secretKey = .error msg := by
    intro q
    unfold decrypt
    rw [hmsg]
  intro p p'
  exact ⟨(hd p).trans (hd p').symm, ⟨msg, hd p⟩⟩

/-- C9 witness: an envelope missing the `mac` field is rejected identically
under two different primitive instantiations, with the missing-properties
error. -/
theorem c9_malformed_rejected_witness :
    decrypt cPrims "\x7b\"salt\":\"a\",\"iv\":\"b\",\"cipherText\":\"c\"\x7d" "sk" =
      decrypt { argon2 := fun _ _ => "", aesEnc := fun _ _ _ => "", aesDec := fun _ _ _ => "",
                hmacSha256 := fun _ _ => "" }
        "\x7b\"salt\":\"a\",\"iv\":\"b\",\"cipherText\":\"c\"\x7d" "sk" ∧
    decrypt cPrims "\x7b\"salt\":\"a\",\"iv\":\"b\",\"cipherText\":\"c\"\x7d" "sk" =
      .error missingPropsMsg :=
  ⟨(c9_malformed_rejected_before_crypto "\x7b\"salt\":\"a\",\"iv\":\"b\",\"cipherText\":\"c\"\x7d"
      "sk"
      (Or.inr (Or.inr ⟨Json.obj [("salt", .str "a"), ("iv", .str "b"), ("cipherText", .str "c")],
        rfl, Or.inr (Or.inr (Or.inr rfl))⟩))
      cPrims
      { argon2 := fun _ _ => "", aesEnc := fun _ _ _ => "", aesDec := fun _ _ _ => "",
        hmacSha256 := fun _ _ => "" }).1,
   rfl⟩

theorem splitOnChar_ne_nil (sep : Char) (cs : List Char) : splitOnChar sep cs ≠ [] := by
  induction cs with
  | nil =>
    rw [splitOnChar.eq_def]
    simp
  | cons c rest ih =>
    rw [splitOnChar.eq_def]
    by_cases hc : (c == sep) = true
    · simp [hc]
    · rcases h : splitOnChar sep rest with _ | ⟨l, ls⟩
      · exact absurd h ih
      · simp [hc, h]

theorem not_mem_splitOnChar (sep : Char) (cs : List Char) :
    ∀ l ∈ splitOnChar sep cs, sep ∉ l := by
  induction cs with
  | nil =>
    intro l hl
    rw [splitOnChar.eq_def] at hl
    simp at hl
    simp [hl]
  | cons c rest ih =>
    intro l hl
    rw [splitOnChar.eq_def] at hl
    simp only [] at hl
    by_cases hc : (c == sep) = true
    · rw [if_pos hc] at hl
      rcases List.mem_cons.mp hl with h | h
      · simp [h]
      · exact ih l h
    · rw [if_neg hc] at hl
      rcases h : splitOnChar sep rest with _ | ⟨m, ms⟩
      · exact absurd h (splitOnChar_ne_nil sep rest)
      · rw [h] at hl
        rcases List.mem_cons.mp hl with h2 | h2
        · have hcm : sep ∉ m := ih m (h ▸ List.mem_cons_self m ms)
          have hcne : ¬ c = sep := by simpa using hc
          subst h2
          intro hmem
          rcases List.mem_cons.mp hmem with h3 | h3
          · exact hcne h3.symm
          · exact hcm h3
        · exact ih l (h ▸ List.mem_cons_of_mem m h2)

theorem splitOnChar_no_sep (sep : Char) (l : List Char) (h : sep ∉ l) :
    splitOnChar sep l = [l] := by
  induction l with
  | nil => rw [splitOnChar.eq_def]
  | cons c rest ih =>
    have hc : ¬ (c == sep) = true := by
      simp only [beq_iff_eq]
      intro h2
      exact h (h2 ▸ List.mem_cons_self c rest)
    have hrest : sep ∉ rest := fun h2 => h (List.mem_cons_of_mem c h2)
    rw [splitOnChar.eq_def]
    simp only []
    rw [if_neg hc, ih hrest]

theorem splitOnChar_append_sepcons (sep : Char) (l r : List Char) (h : sep ∉ l) :
    splitOnChar sep (l ++ sep :: r) = l :: splitOnChar sep r := by
  induction l with
  | nil =>
    rw [List.nil_append, splitOnChar.eq_def]
    simp
  | cons c rest ih =>
    have hc : ¬ (c == sep) = true := by
      simp only [beq_iff_eq]
      intro h2
      exact h (h2 ▸ List.mem_cons_self c rest)
    have hrest : sep ∉ rest := fun h2 => h (List.mem_cons_of_mem c h2)
    rw [List.cons_append, splitOnChar.eq_def]
    simp only []
    rw [if_neg hc, ih hrest]

theorem splitOnChar_joinChars (ls : List (List Char)) (hne : ls ≠ [])
    (h : ∀ l ∈ ls, '\n' ∉ l) : splitOnChar '\n' (joinChars ls) = ls := by
  induction ls with
  | nil => exact absurd rfl hne
  | cons l rest ih =>
    rcases rest with _ | ⟨m, ms⟩
    · rw [show joinChars [l] = l from rfl]
      exact splitOnChar_no_sep '\n' l (h l (List.mem_cons_self l []))
    · rw [show joinChars (l :: m :: ms) = l ++ '\n' :: joinChars (m :: ms) from rfl,
        splitOnChar_append_sepcons '\n' l _ (h l (List.mem_cons_self l (m :: ms))),
        ih (List.cons_ne_nil m ms) (fun x hx => h x (List.mem_cons_of_mem l hx))]

theorem getLastD_of_ne_nil {α : Type} (ls : List α) (a b : α) (h : ls ≠ []) :
    ls.getLastD a = ls.getLastD b := by
  rw [List.getLastD_eq_getLast?, List.getLastD_eq_getLast?]
  rcases hq : ls.getLast? with _ | x
  · have h2 := List.getLast?_isSome.mpr h
    rw [hq] at h2
    simp at h2
  · simp

theorem splitOnChar_append_line (cs tpl : List Char) (h : '\n' ∉ tpl) :
    splitOnChar '\n' (cs ++ tpl ++ ['\n']) =
      (splitOnChar '\n' cs).dropLast ++ [((splitOnChar '\n' cs).getLastD []) ++ tpl, []] := by
  induction cs with
  | nil =>
    rw [List.nil_append, show tpl ++ ['\n'] = tpl ++ '\n' :: [] from rfl,
      splitOnChar_append_sepcons '\n' tpl [] h]
    rw [show splitOnChar '\n' ([] : List Char) = [[]] by rw [splitOnChar.eq_def]]
    simp
  | cons c cs' ih =>
    by_cases hc : (c == '\n') = true
    · have hceq : c = '\n' := by simpa using hc
      subst hceq
      rcases hS : splitOnChar '\n' cs' with _ | ⟨m, ms⟩
      · exact absurd hS (splitOnChar_ne_nil '\n' cs')
      · rw [show ('\n' :: cs') ++ tpl ++ ['\n'] = '\n' :: (cs' ++ tpl ++ ['\n']) by simp,
          splitOnChar.eq_def]
        simp only []
        rw [if_pos (by simp), ih, hS,
          show splitOnChar '\n' ('\n' :: cs') = [] :: splitOnChar '\n' cs' by
            rw [splitOnChar.eq_def]; simp, hS]
        rw [List.dropLast_cons_of_ne_nil (List.cons_ne_nil m ms)]
        simp [List.getLastD]
    · rcases hS : splitOnChar '\n' cs' with _ | ⟨m, ms⟩
      · exact absurd hS (splitOnChar_ne_nil '\n' cs')
      · have hsplitc : splitOnChar '\n' (c :: cs') = (c :: m) :: ms := by
          rw [splitOnChar.eq_def]
          simp only []
          rw [if_neg hc, hS]
        rcases ms with _ | ⟨n, ns⟩
        · -- split cs' = [m]
          have hglue : splitOnChar '\n' (c :: cs' ++ tpl ++ ['\n']) =
              (c :: (m ++ tpl)) :: [[]] := by
            rw [show (c :: cs') ++ tpl ++ ['\n'] = c :: (cs' ++ tpl ++ ['\n']) by simp,
              splitOnChar.eq_def]
            simp only []
            rw [if_neg hc, ih, hS]
            simp [List.getLastD]
          rw [hglue, hsplitc]
          simp [List.getLastD]
        · -- split cs' = m :: n :: ns
          have hglue : splitOnChar '\n' (c :: cs' ++ tpl ++ ['\n']) =
              (c :: m) :: (List.dropLast (n :: ns) ++
                [((n :: ns).getLastD []) ++ tpl, []]) := by
            rw [show (c :: cs') ++ tpl ++ ['\n'] = c :: (cs' ++ tpl ++ ['\n']) by simp,
              splitOnChar.eq_def]
            simp only []
            rw [if_neg hc, ih, hS,
              List.dropLast_cons_of_ne_nil (List.cons_ne_nil n ns)]
            rw [show (m :: n :: ns).getLastD [] = (n :: ns).getLastD [] by
              rw [List.getLastD_eq_getLast?, List.getLastD_eq_getLast?,
                List.getLast?_cons_cons]]
            simp
          rw [hglue, hsplitc,
            List.dropLast_cons_of_ne_nil (List.cons_ne_nil n ns),
            show ((c :: m) :: n :: ns).getLastD [] = (n :: ns).getLastD [] by
              rw [List.getLastD_eq_getLast?, List.getLastD_eq_getLast?,
                List.getLast?_cons_cons]]
          simp

theorem expandRepl_no_dollar (matched before after : String) :
    ∀ (t : List Char), '$' ∉ t → expandRepl matched before after t = t := by
  intro t
  induction t with
  | nil => intro _; rw [expandRepl.eq_def]
  | cons c rest ih =>
    intro h
    have hc : ¬ (c == '$') = true := by
      simp only [beq_iff_eq]
      intro h2
      exact h (h2 ▸ List.mem_cons_self c rest)
    have hrest : '$' ∉ rest := fun h2 => h (List.mem_cons_of_mem c h2)
    rw [expandRepl.eq_def]
    simp only []
    rw [if_neg hc, ih hrest]

theorem isPrefixOf_append_self (p t : List Char) : (p.isPrefixOf (p ++ t)) = true := by
  rw [List.isPrefixOf_iff_prefix]
  exact List.prefix_append p t

theorem tplChars (K v : String) :
    (K ++ "=" ++ v).toList = (K.toList ++ ['=']) ++ v.toList := by
  simp [strToList_append]

theorem glue_not_prefix (Kc v1cs last : List Char)
    (hKe : '=' ∉ Kc)
    (hlast : ((Kc ++ ['=']).isPrefixOf last) = false)
    (hne : last ≠ []) :
    ((Kc ++ ['=']).isPrefixOf (last ++ ((Kc ++ ['=']) ++ v1cs))) = false := by
  rw [Bool.eq_false_iff]
  intro habs
  rw [List.isPrefixOf_iff_prefix] at habs
  by_cases hlen : Kc.length + 1 ≤ last.length
  · have hpl : (Kc ++ ['=']) <+: last :=
      List.prefix_of_prefix_length_le habs (List.prefix_append last _) (by simpa using hlen)
    have h2 : ((Kc ++ ['=']).isPrefixOf last) = true := List.isPrefixOf_iff_prefix.mpr hpl
    rw [hlast] at h2
    exact Bool.noConfusion h2
  · have hlastpos : 0 < last.length := List.length_pos.mpr hne
    obtain ⟨t, ht⟩ := habs
    have hidx := congrArg (fun l => l[Kc.length]?) ht
    simp only [] at hidx
    have hL : ((Kc ++ ['=']) ++ t)[Kc.length]? = some '=' := by
      rw [List.getElem?_append_left (by simp), List.getElem?_append_right (Nat.le_refl _)]
      simp
    have hR : (last ++ ((Kc ++ ['=']) ++ v1cs))[Kc.length]? = Kc[Kc.length - last.length]? := by
      rw [List.getElem?_append_right (by omega), List.getElem?_append_left (by
        rw [List.length_append]
        omega)]
      rw [List.getElem?_append_left (by omega)]
    rw [hL, hR] at hidx
    exact hKe (List.getElem?_mem hidx.symm)

theorem exists_first_decomp {α : Type} (p : α → Bool) (ls : List α)
    (h : ∃ l ∈ ls, p l = true) :
    ∃ pre x post, ls = pre ++ x :: post ∧ (∀ l ∈ pre, p l = false) ∧ p x = true := by
  induction ls with
  | nil => simp at h
  | cons a rest ih =>
    by_cases ha : p a = true
    · exact ⟨[], a, rest, rfl, by simp, ha⟩
    · have hrest : ∃ l ∈ rest, p l = true := by
        obtain ⟨l, hl, hpl⟩ := h
        rcases List.mem_cons.mp hl with rfl | hl2
        · exact absurd hpl ha
        · exact ⟨l, hl2, hpl⟩
      obtain ⟨pre, x, post, hdec, hpre, hx⟩ := ih hrest
      refine ⟨a :: pre, x, post, by rw [hdec, List.cons_append], ?_, hx⟩
      intro l hl
      rcases List.mem_cons.mp hl with rfl | hl2
      · exact Bool.eq_false_iff.mpr ha
      · exact hpre l hl2

theorem storeBaseEnvKey_append_case (content K v : String)
    (hnone : ∀ l ∈ splitOnChar '\n' content.toList,
      ((K.toList ++ ['=']).isPrefixOf l) = false) :
    storeBaseEnvKey content K v = content ++ K ++ "=" ++ v ++ "\n" := by
  unfold storeBaseEnvKey
  simp only []
  rw [List.findIdx?_eq_none_iff.mpr hnone]

theorem storeBaseEnvKey_replace_case (content K v : String)
    (pre : List (List Char)) (x : List Char) (post : List (List Char))
    (hls : splitOnChar '\n' content.toList = pre ++ x :: post)
    (hpre : ∀ l ∈ pre, ((K.toList ++ ['=']).isPrefixOf l) = false)
    (hx : ((K.toList ++ ['=']).isPrefixOf x) = true)
    (hdollar : '$' ∉ (K ++ "=" ++ v).toList) :
    storeBaseEnvKey content K v =
      String.mk (joinChars (pre ++ [(K ++ "=" ++ v).toList] ++ post)) := by
  unfold storeBaseEnvKey
  simp only []
  rw [hls]
  have hfi : (pre ++ x :: post).findIdx? (fun l => (K.toList ++ ['=']).isPrefixOf l) =
      some pre.length := by
    rw [List.findIdx?_append, List.findIdx?_eq_none_iff.mpr hpre, List.findIdx?_cons, hx]
    simp
  rw [hfi]
  simp only []
  rw [List.take_left, expandRepl_no_dollar _ _ _ _ hdollar,
    show (pre ++ x :: post).drop (pre.length + 1) = post by
      rw [show pre ++ x :: post = (pre ++ [x]) ++ post by simp,
        List.drop_left' (by simp)]]

theorem upsert_lines_count (A B : List (List Char)) (K v : String)
    (hA : ∀ l ∈ A, ((K.toList ++ ['=']).isPrefixOf l) = false)
    (hB : ∀ l ∈ B, ((K.toList ++ ['=']).isPrefixOf l) = false) :
    (A ++ [(K ++ "=" ++ v).toList] ++ B).count ((K ++ "=" ++ v).toList) = 1 := by
  have hself : ((K.toList ++ ['=']).isPrefixOf ((K ++ "=" ++ v).toList)) = true := by
    rw [tplChars]
    exact isPrefixOf_append_self _ _
  have hnA : (K ++ "=" ++ v).toList ∉ A := by
    intro hmem
    rw [hA _ hmem] at hself
    exact Bool.noConfusion hself
  have hnB : (K ++ "=" ++ v).toList ∉ B := by
    intro hmem
    rw [hB _ hmem] at hself
    exact Bool.noConfusion hself
  rw [List.count_append, List.count_append,
    List.count_eq_zero.mpr hnA, List.count_eq_zero.mpr hnB]
  simp [List.count_cons]

theorem upsert_lines_getValue (A B : List (List Char)) (K v : String)
    (hA : ∀ l ∈ A, ((K.toList ++ ['=']).isPrefixOf l) = false) :
    (A ++ [(K ++ "=" ++ v).toList] ++ B).findSome? (fun l =>
      if (K.toList ++ ['=']).isPrefixOf l
      then some (String.mk (l.drop (K.toList.length + 1))) else none) = some v := by
  have hself : ((K.toList ++ ['=']).isPrefixOf ((K ++ "=" ++ v).toList)) = true := by
    rw [tplChars]
    exact isPrefixOf_append_self _ _
  have hAnone : A.findSome? (fun l =>
      if (K.toList ++ ['=']).isPrefixOf l
      then some (String.mk (l.drop (K.toList.length + 1))) else none) = none := by
    rw [List.findSome?_eq_none_iff]
    intro x hx
    rw [hA x hx]
    simp
  rw [List.findSome?_append, List.findSome?_append, hAnone, Option.none_or]
  have hdrop : ((K ++ "=" ++ v).toList).drop (K.toList.length + 1) = v.toList := by
    rw [tplChars, List.drop_left' (by simp)]
  rw [show ([(K ++ "=" ++ v).toList].findSome? (fun l =>
      if (K.toList ++ ['=']).isPrefixOf l
      then some (String.mk (l.drop (K.toList.length + 1))) else none)) =
      some (String.mk (((K ++ "=" ++ v).toList).drop (K.toList.length + 1))) by
    rw [List.findSome?_cons]
    rw [if_pos hself]]
  rw [hdrop, strMk_toList]
  simp

theorem getKeyValue_none (c name : String)
    (h : ∀ l ∈ splitOnChar '\n' c.toList,
      ((name.toList ++ ['=']).isPrefixOf l) = false) :
    getKeyValue c name = none := by
  unfold getKeyValue
  rw [List.findSome?_eq_none_iff]
  intro x hx
  rw [h x hx]
  simp

/-- Keys made of plain identifier characters, for which the dynamically built
regular expressions `^key=.*` and `^key=(.*)$` behave as literal prefix
matching. -/
def plainKey (K : String) : Prop :=
  K ≠ "" ∧ ∀ c ∈ K.toList, c.isAlphanum = true ∨ c = '_'

/-- Values free of the replacement-pattern character `$` and of newlines, for
which `String.replace` inserts them literally and the stored line structure
is preserved. -/
def plainValue (v : String) : Prop :=
  ∀ c ∈ v.toList, c ≠ '$' ∧ c ≠ '\n'

instance (K : String) : Decidable (plainKey K) := by
  unfold plainKey
  infer_instance

instance (v : String) : Decidable (plainValue v) := by
  unfold plainValue
  infer_instance

theorem plainKey_no_char (K : String) (hK : plainKey K) (c : Char)
    (hc1 : c.isAlphanum = false) (hc2 : c ≠ '_') : c ∉ K.toList := by
  intro hmem
  rcases hK.2 c hmem with h | h
  · rw [hc1] at h
    exact Bool.noConfusion h
  · exact hc2 h

theorem tpl_no_char (K v : String) (c : Char) (hc : c ≠ '=')
    (hK : c ∉ K.toList) (hv : c ∉ v.toList) : c ∉ (K ++ "=" ++ v).toList := by
  rw [tplChars]
  intro hmem
  rcases List.mem_append.mp hmem with h | h
  · rcases List.mem_append.mp h with h2 | h2
    · exact hK h2
    · rcases List.mem_singleton.mp h2 with rfl
      exact hc rfl
  · exact hv h

theorem getLastD_mem {α : Type} (ls : List α) (d : α) (h : ls ≠ []) :
    ls.getLastD d ∈ ls := by
  rw [List.getLastD_eq_getLast?]
  rcases hq : ls.getLast? with _ | x
  · have h2 := List.getLast?_isSome.mpr h
    rw [hq] at h2
    simp at h2
  · exact List.mem_of_getLast?_eq_some hq

theorem pat_not_prefix_nil (K : String) :
    (((K.toList ++ ['=']).isPrefixOf ([] : List Char))) = false := by
  rw [Bool.eq_false_iff]
  intro h
  rw [List.isPrefixOf_iff_prefix] at h
  have h2 := List.prefix_nil.mp h
  simp at h2

theorem tpl_starts_with_key (K v : String) :
    ((K.toList ++ ['=']).isPrefixOf ((K ++ "=" ++ v).toList)) = true := by
  rw [tplChars]
  exact isPrefixOf_append_self _ _

theorem mem_three_append_nl (A B : List (List Char)) (t : List Char)
    (hA : ∀ l ∈ A, '\n' ∉ l) (ht : '\n' ∉ t) (hB : ∀ l ∈ B, '\n' ∉ l) :
    ∀ l ∈ A ++ [t] ++ B, '\n' ∉ l := by
  intro l hl
  rcases List.mem_append.mp hl with h | h
  · rcases List.mem_append.mp h with h2 | h2
    · exact hA l h2
    · have h3 := List.mem_singleton.mp h2
      subst h3
      exact ht
  · exact hB l h

theorem c8_conclusions_of_lines (finalContent : String) (A B : List (List Char))
    (K v2 : String)
    (hlines : splitOnChar '\n' finalContent.toList = A ++ [(K ++ "=" ++ v2).toList] ++ B)
    (hA : ∀ l ∈ A, ((K.toList ++ ['=']).isPrefixOf l) = false)
    (hB : ∀ l ∈ B, ((K.toList ++ ['=']).isPrefixOf l) = false) :
    (splitOnChar '\n' finalContent.toList).count ((K ++ "=" ++ v2).toList) = 1 ∧
    getKeyValue finalContent K = some v2 := by
  constructor
  · rw [hlines]
    exact upsert_lines_count A B K v2 hA hB
  · unfold getKeyValue
    rw [hlines]
    exact upsert_lines_getValue A B K v2 hA

/-- C8 amended: for a plain identifier key `K`, values `v1`, `v2` free of `$`
and newline characters, and a base file whose lines contain at most one
`K=`-entry, `setValue(K, v1)` followed by `setValue(K, v2)` leaves exactly
one line `K=v2` (replacing the first existing `K=` line in place, else
appending `K=value` with a trailing newline), `getValue(K)` then returns
`v2`, and `getValue` of a name with no matching line returns the absent
sentinel. -/
theorem c8_store_upsert (content K v1 v2 : String)
    (hK : plainKey K) (hv1 : plainValue v1) (hv2 : plainValue v2)
    (huniq : ((splitOnChar '\n' content.toList).countP
      (fun l => (K.toList ++ ['=']).isPrefixOf l)) ≤ 1) :
    (splitOnChar '\n' (storeBaseEnvKey (storeBaseEnvKey content K v1) K v2).toList).count
      ((K ++ "=" ++ v2).toList) = 1 ∧
    getKeyValue (storeBaseEnvKey (storeBaseEnvKey content K v1) K v2) K = some v2 ∧
    (∀ c name : String,
      (∀ l ∈ splitOnChar '\n' c.toList, ((name.toList ++ ['=']).isPrefixOf l) = false) →
      getKeyValue c name = none) := by
  have hKe : '=' ∉ K.toList := plainKey_no_char K hK '=' (by decide) (by decide)
  have hKd : '$' ∉ K.toList := plainKey_no_char K hK '$' (by decide) (by decide)
  have hKn : '\n' ∉ K.toList := plainKey_no_char K hK '\n' (by decide) (by decide)
  have hv1d : '$' ∉ v1.toList := fun h => (hv1 '$' h).1 rfl
  have hv1n : '\n' ∉ v1.toList := fun h => (hv1 '\n' h).2 rfl
  have hv2d : '$' ∉ v2.toList := fun h => (hv2 '$' h).1 rfl
  have hv2n : '\n' ∉ v2.toList := fun h => (hv2 '\n' h).2 rfl
  have htpl1d : '$' ∉ (K ++ "=" ++ v1).toList := tpl_no_char K v1 '$' (by decide) hKd hv1d
  have htpl1n : '\n' ∉ (K ++ "=" ++ v1).toList := tpl_no_char K v1 '\n' (by decide) hKn hv1n
  have htpl2d : '$' ∉ (K ++ "=" ++ v2).toList := tpl_no_char K v2 '$' (by decide) hKd hv2d
  have htpl2n : '\n' ∉ (K ++ "=" ++ v2).toList := tpl_no_char K v2 '\n' (by decide) hKn hv2n
  have hlsnl := not_mem_splitOnChar '\n' content.toList
  have hmain :
      (splitOnChar '\n' (storeBaseEnvKey (storeBaseEnvKey content K v1) K v2).toList).count
        ((K ++ "=" ++ v2).toList) = 1 ∧
      getKeyValue (storeBaseEnvKey (storeBaseEnvKey content K v1) K v2) K = some v2 := by
    by_cases hex : ∃ l ∈ splitOnChar '\n' content.toList,
      ((K.toList ++ ['=']).isPrefixOf l) = true
    · obtain ⟨pre, x, post, hdec, hpre, hx⟩ :=
        exists_first_decomp (fun l => (K.toList ++ ['=']).isPrefixOf l) _ hex
      have hpost : ∀ l ∈ post, ((K.toList ++ ['=']).isPrefixOf l) = false := by
        have hcount := huniq
        rw [hdec, List.countP_append, List.countP_cons, hx] at hcount
        simp only [if_true] at hcount
        have hz : post.countP (fun l => (K.toList ++ ['=']).isPrefixOf l) = 0 := by omega
        intro l hl
        exact Bool.eq_false_iff.mpr (List.countP_eq_zero.mp hz l hl)
      have hprenl : ∀ l ∈ pre, '\n' ∉ l := by
        intro l hl
        apply hlsnl
        rw [hdec]
        exact List.mem_append.mpr (Or.inl hl)
      have hpostnl : ∀ l ∈ post, '\n' ∉ l := by
        intro l hl
        apply hlsnl
        rw [hdec]
        exact List.mem_append.mpr (Or.inr (List.mem_cons_of_mem x hl))
      have hstep1 := storeBaseEnvKey_replace_case content K v1 pre x post hdec hpre hx htpl1d
      have hlines1 : splitOnChar '\n' (storeBaseEnvKey content K v1).toList =
          pre ++ [(K ++ "=" ++ v1).toList] ++ post := by
        rw [hstep1]
        exact splitOnChar_joinChars _ (by simp)
          (mem_three_append_nl pre post _ hprenl htpl1n hpostnl)
      have hls2 : splitOnChar '\n' (storeBaseEnvKey content K v1).toList =
          pre ++ ((K ++ "=" ++ v1).toList) :: post := by
        rw [hlines1]
        simp
      have hstep2 := storeBaseEnvKey_replace_case (storeBaseEnvKey content K v1) K v2
        pre ((K ++ "=" ++ v1).toList) post hls2 hpre (tpl_starts_with_key K v1) htpl2d
      have hfinal : splitOnChar '\n'
          (storeBaseEnvKey (storeBaseEnvKey content K v1) K v2).toList =
          pre ++ [(K ++ "=" ++ v2).toList] ++ post := by
        rw [hstep2]
        exact splitOnChar_joinChars _ (by simp)
          (mem_three_append_nl pre post _ hprenl htpl2n hpostnl)
      exact c8_conclusions_of_lines _ pre post K v2 hfinal hpre hpost
    · have hnone : ∀ l ∈ splitOnChar '\n' content.toList,
          ((K.toList ++ ['=']).isPrefixOf l) = false := by
        intro l hl
        rw [Bool.eq_false_iff]
        intro htrue
        exact hex ⟨l, hl, htrue⟩
      have hstep1 := storeBaseEnvKey_append_case content K v1 hnone
      have htl1 : (content ++ K ++ "=" ++ v1 ++ "\n").toList =
          content.toList ++ (K ++ "=" ++ v1).toList ++ ['\n'] := by
        simp [strToList_append]
      have hlines1 : splitOnChar '\n' (storeBaseEnvKey content K v1).toList =
          (splitOnChar '\n' content.toList).dropLast ++
            [((splitOnChar '\n' content.toList).getLastD []) ++ (K ++ "=" ++ v1).toList,
             []] := by
        rw [hstep1, htl1, splitOnChar_append_line _ _ htpl1n]
      have hpreA : ∀ l ∈ (splitOnChar '\n' content.toList).dropLast,
          ((K.toList ++ ['=']).isPrefixOf l) = false :=
        fun l hl => hnone l (List.dropLast_subset _ hl)
      have hAnl : ∀ l ∈ (splitOnChar '\n' content.toList).dropLast, '\n' ∉ l :=
        fun l hl => hlsnl l (List.dropLast_subset _ hl)
      by_cases hlast : (splitOnChar '\n' content.toList).getLastD [] = []
      · rw [hlast, List.nil_append] at hlines1
        have hstep2 := storeBaseEnvKey_replace_case (storeBaseEnvKey content K v1) K v2
          ((splitOnChar '\n' content.toList).dropLast) ((K ++ "=" ++ v1).toList) [[]]
          hlines1 hpreA (tpl_starts_with_key K v1) htpl2d
        have hfinal : splitOnChar '\n'
            (storeBaseEnvKey (storeBaseEnvKey content K v1) K v2).toList =
            (splitOnChar '\n' content.toList).dropLast ++
              [(K ++ "=" ++ v2).toList] ++ [[]] := by
          rw [hstep2]
          exact splitOnChar_joinChars _ (by simp)
            (mem_three_append_nl _ [[]] _ hAnl htpl2n (by
              intro l hl
              have h3 := List.mem_singleton.mp hl
              subst h3
              simp))
        exact c8_conclusions_of_lines _ _ [[]] K v2 hfinal hpreA (by
          intro l hl
          have h3 := List.mem_singleton.mp hl
          subst h3
          exact pat_not_prefix_nil K)
      · have hlastmem : (splitOnChar '\n' content.toList).getLastD [] ∈
            splitOnChar '\n' content.toList :=
          getLastD_mem _ _ (splitOnChar_ne_nil '\n' content.toList)
        have hlastpre := hnone _ hlastmem
        have hglue : ((K.toList ++ ['=']).isPrefixOf
            (((splitOnChar '\n' content.toList).getLastD []) ++
              (K ++ "=" ++ v1).toList)) = false := by
          rw [show (K ++ "=" ++ v1).toList = (K.toList ++ ['=']) ++ v1.toList from
            tplChars K v1]
          exact glue_not_prefix K.toList v1.toList _ hKe hlastpre hlast
        have hnone2 : ∀ l ∈ splitOnChar '\n' (storeBaseEnvKey content K v1).toList,
            ((K.toList ++ ['=']).isPrefixOf l) = false := by
          intro l hl
          rw [hlines1] at hl
          rcases List.mem_append.mp hl with h | h
          · exact hpreA l h
          · rcases List.mem_cons.mp h with h2 | h2
            · subst h2
              exact hglue
            · have h3 := List.mem_singleton.mp h2
              subst h3
              exact pat_not_prefix_nil K
        have hstep2 := storeBaseEnvKey_append_case (storeBaseEnvKey content K v1) K v2 hnone2
        have htl2 : (storeBaseEnvKey content K v1 ++ K ++ "=" ++ v2 ++ "\n").toList =
            (storeBaseEnvKey content K v1).toList ++ (K ++ "=" ++ v2).toList ++ ['\n'] := by
          simp [strToList_append]
        have hfinal0 : splitOnChar '\n'
            (storeBaseEnvKey (storeBaseEnvKey content K v1) K v2).toList =
            (splitOnChar '\n' (storeBaseEnvKey content K v1).toList).dropLast ++
              [((splitOnChar '\n' (storeBaseEnvKey content K v1).toList).getLastD []) ++
                (K ++ "=" ++ v2).toList, []] := by
          rw [hstep2, htl2, splitOnChar_append_line _ _ htpl2n]
        have hdl : (splitOnChar '\n' (storeBaseEnvKey content K v1).toList).dropLast =
            (splitOnChar '\n' content.toList).dropLast ++
              [((splitOnChar '\n' content.toList).getLastD []) ++ (K ++ "=" ++ v1).toList] := by
          rw [hlines1,
            show (splitOnChar '\n' content.toList).dropLast ++
              [((splitOnChar '\n' content.toList).getLastD []) ++ (K ++ "=" ++ v1).toList,
               []] =
              ((splitOnChar '\n' content.toList).dropLast ++
                [((splitOnChar '\n' content.toList).getLastD []) ++
                  (K ++ "=" ++ v1).toList]) ++ [[]] by simp,
            List.dropLast_concat]
        have hgl : (splitOnChar '\n' (storeBaseEnvKey content K v1).toList).getLastD [] = [] := by
          rw [hlines1, List.getLastD_eq_getLast?,
            show (splitOnChar '\n' content.toList).dropLast ++
              [((splitOnChar '\n' content.toList).getLastD []) ++ (K ++ "=" ++ v1).toList,
               []] =
              ((splitOnChar '\n' content.toList).dropLast ++
                [((splitOnChar '\n' content.toList).getLastD []) ++
                  (K ++ "=" ++ v1).toList]) ++ [[]] by simp,
            List.getLast?_concat]
          simp
        rw [hdl, hgl, List.nil_append] at hfinal0
        have hfinal : splitOnChar '\n'
            (storeBaseEnvKey (storeBaseEnvKey content K v1) K v2).toList =
            ((splitOnChar '\n' content.toList).dropLast ++
              [((splitOnChar '\n' content.toList).getLastD []) ++ (K ++ "=" ++ v1).toList]) ++
              [(K ++ "=" ++ v2).toList] ++ [[]] := by
          rw [hfinal0]
          simp
        refine c8_conclusions_of_lines _ _ [[]] K v2 hfinal ?_ (by
          intro l hl
          have h3 := List.mem_singleton.mp hl
          subst h3
          exact pat_not_prefix_nil K)
        intro l hl
        rcases List.mem_append.mp hl with h | h
        · exact hpreA l h
        · have h3 := List.mem_singleton.mp h
          subst h3
          exact hglue
  exact ⟨hmain.1, hmain.2, fun c name h => getKeyValue_none c name h⟩

/-- C8 counterexample: the claim fails as stated. First, `String.replace`
expands replacement patterns, so `setValue("K", "$&")` on a file whose `K`
line is `K=v1` produces the line `K=K=v1` instead of `K=$&` — no line `K=$&`
exists and `getValue("K")` returns `K=v1`. Second, on a file already holding
two `K=v2` lines the two calls leave two lines `K=v2`, not exactly one. -/
theorem c8_counterexample :
    storeBaseEnvKey (storeBaseEnvKey "" "K" "v1") "K" "$&" = "K=K=v1\n" ∧
    getKeyValue (storeBaseEnvKey (storeBaseEnvKey "" "K" "v1") "K" "$&") "K" =
      some "K=v1" ∧
    ("K=v1" : String) ≠ "$&" ∧
    (splitOnChar '\n'
      (storeBaseEnvKey (storeBaseEnvKey "" "K" "v1") "K" "$&").toList).count
      (("K" ++ "=" ++ "$&").toList) = 0 ∧
    storeBaseEnvKey (storeBaseEnvKey "K=v2\nK=v2\n" "K" "v1") "K" "v2" = "K=v2\nK=v2\n" ∧
    (splitOnChar '\n' ("K=v2\nK=v2\n" : String).toList).count ("K=v2".toList) = 2 := by
  refine ⟨rfl, rfl, by decide, by decide, rfl, by decide⟩

/-- C8 witness: the amended upsert behaviour on a concrete file. -/
theorem c8_store_upsert_witness :
    (splitOnChar '\n'
      (storeBaseEnvKey (storeBaseEnvKey "A=1\n" "K" "a") "K" "b").toList).count
      (("K" ++ "=" ++ "b").toList) = 1 ∧
    getKeyValue (storeBaseEnvKey (storeBaseEnvKey "A=1\n" "K" "a") "K" "b") "K" =
      some "b" ∧
    getKeyValue "A=1\n" "MISSING" = none :=
  ⟨(c8_store_upsert "A=1\n" "K" "a" "b" (by decide) (by decide) (by decide) (by decide)).1,
   (c8_store_upsert "A=1\n" "K" "a" "b" (by decide) (by decide) (by decide) (by decide)).2.1,
   (c8_store_upsert "A=1\n" "K" "a" "b" (by decide) (by decide) (by decide) (by decide)).2.2
     "A=1\n" "MISSING" (by decide)⟩
